import Mathlib

/-!
Verification of the `py-gics` GICS resolver (`gics/gics.py`, `gics/map.py`).

Embedding conventions:
* Python strings (GICS codes) are modelled as `List Char` (`Str`); `len(s)` is
  `List.length`, the slice `s[:n]` is `List.take n`, and `a.startswith(b)` is
  `List.isPrefixOf b a`.
* A Python dict of descriptors is an association list `Table`; `dict.get` /
  `dict[...]` are `Table.get` (first matching key, keys are unique in real
  dicts).
* `GICS.__init__` is `GICS.make`, returning `Except ConsError GICS`: the
  `ValueError` for an unsupported version and the (never actually reached)
  `KeyError` of `_get_definition` become error values.
* The attribute `self._levels`, which is only assigned on the valid branch of
  the constructor, is an `Option` field, `none` meaning "never assigned";
  `GICS.level` returns `Except PyFail _` so that reading the missing attribute
  or a bad list index would be a visible `.error`.
* Python's `is_valid` property is a truthiness chain whose raw value is `None`,
  `False`, `""` or the descriptor `Map`; `GICS.isValidRaw` keeps that raw value
  (`ValidRaw`) because `is_same` compares two such values with `==`.
-/

set_option autoImplicit false

namespace PyGics

/-- GICS codes are Python strings, modelled as lists of characters. -/
abbrev Str := List Char

/-- Character list of a Lean string literal (used to write code literals). -/
def strOf (s : String) : Str := s.data

/-- Record stored in a definition table (a `Map` in the source). The raw data
gives `name` and, for sub-industries, `description`; the `code` key is absent
(`none`) until `_get_definition` assigns it. -/
structure Descriptor where
  name : String
  description : Option String
  code : Option Str
deriving DecidableEq, Repr

/-- A definition table: the dict from GICS code to descriptor
(`gics.definitions` data, wrapped by `Map.create_recursively`). -/
abbrev Table := List (Str × Descriptor)

/-- Python `dict.get` / `dict[...]`: first entry with the given key. -/
def Table.get : Table → Str → Option Descriptor
  | [], _ => none
  | (k', d) :: rest, k => if k' = k then some d else Table.get rest k

/-- Python `dict.keys()`. -/
def Table.keys (t : Table) : List Str := t.map (·.1)

/-- Effect of `definition.code = gics_code` on the dict that owns
`definition`: the entry for `k` gets its `code` field set to `k`. -/
def Table.setCode : Table → Str → Table
  | [], _ => []
  | (k', d) :: rest, k =>
      (k', if k' = k then { d with code := some k } else d) :: Table.setCode rest k

/-- The `code` argument of `GICS.__init__`: `None`, a string, or some other
(non-string) Python value of the given truthiness. -/
inductive CodeInput where
  | pyNone
  | str (s : Str)
  | other (truthy : Bool)
deriving DecidableEq, Repr

/-- The version tables imported from `gics.definitions`.

Modelled from the spec: the module `gics.definitions` (the static data files
`d_20140228`, `d_20160901`, `d_20180929`, `d_20230318`) is not part of the
sources under verification; per the spec each is a mapping from code string to
a record with a `name` and, for level-4 codes, a `description`. -/
structure Definitions where
  d_20140228 : Table
  d_20160901 : Table
  d_20180929 : Table
  d_20230318 : Table

/-- The module-level `DEFINITIONS` dict of `gics.py`. -/
def DEFINITIONS (D : Definitions) : List (String × Table) :=
  [("20140228", D.d_20140228),
   ("20160901", D.d_20160901),
   ("20180929", D.d_20180929),
   ("20230318", D.d_20230318)]

/-- The module-level `DEFAULT_VERSION` of `gics.py`. -/
def DEFAULT_VERSION : String := "20230318"

/-- The four keys of `DEFINITIONS` (`list(DEFINITIONS.keys())`). -/
def knownVersions : List String := ["20140228", "20160901", "20180929", "20230318"]

/-- Payload of the `ValueError` raised for an unsupported version: the message
interpolates the requested version and `list(DEFINITIONS.keys())`. -/
structure VersionError where
  version : String
  available : List String
deriving DecidableEq, Repr

/-- Exceptions the constructor can raise: the explicit `ValueError` for an
unknown version, and the `KeyError` that `self._definition[gics_code]` in
`_get_definition` would raise for a missing key. -/
inductive ConsError where
  | unsupportedVersion (e : VersionError)
  | keyError (k : Str)
deriving DecidableEq, Repr

/-- State of a constructed `GICS` object. `code` is `self._code` (cleared to
`None` on the invalid branch); `levels` is `self._levels`, `none` when the
attribute was never assigned. -/
structure GICS where
  definition_version : String
  definition : Table
  code : Option Str
  levels : Option (List (Option Descriptor))
deriving DecidableEq, Repr

/-- Raw value of the truthiness chain
`self.code and isinstance(self.code, str) and len(self.code) >= 2 and
len(self.code) <= 8 and len(self.code) % 2 == 0 and
self._definition.get(self.code)` for a constructed object (whose stored code
is `None` or a string). The possible results are `None` (falsy code or
failed `.get`), `False` (a failed length test), `""` (empty string code), or
the descriptor fetched by `.get`. -/
inductive ValidRaw where
  | pyNone
  | pyFalse
  | emptyStr
  | descr (d : Descriptor)
deriving DecidableEq, Repr

/-- Python truthiness of a `ValidRaw` value: only the descriptor `Map` is
truthy (every table record carries at least `name`, so the dict is
non-empty). -/
def ValidRaw.truthy : ValidRaw → Bool
  | .descr _ => true
  | _ => false

/-- Python `==` between two values the validity chain can produce
(`None == None`, `False == False`, `"" == ""` are `True`; dicts compare by
contents; mixed comparisons among these values are `False`). -/
def pyEq : ValidRaw → ValidRaw → Bool
  | .pyNone, .pyNone => true
  | .pyFalse, .pyFalse => true
  | .emptyStr, .emptyStr => true
  | .descr d, .descr d' => d = d'
  | _, _ => false

/-- The `is_valid` property's raw chain value on the current object state. -/
def GICS.isValidRaw (g : GICS) : ValidRaw :=
  match g.code with
  | none => .pyNone
  | some s =>
      if s.isEmpty then .emptyStr
      else if ¬ 2 ≤ s.length then .pyFalse
      else if ¬ s.length ≤ 8 then .pyFalse
      else if ¬ s.length % 2 = 0 then .pyFalse
      else
        match g.definition.get s with
        | none => .pyNone
        | some d => .descr d

/-- The `is_valid` property used in a boolean position (`if self.is_valid:`). -/
def GICS.isValid (g : GICS) : Bool := g.isValidRaw.truthy

/-- The same validity test applied to a candidate code string before the object
exists (the constructor's `if self.is_valid:` with `self._code = code`). -/
def validStr (t : Table) (s : Str) : Bool :=
  !s.isEmpty && decide (2 ≤ s.length) && decide (s.length ≤ 8)
    && (s.length % 2 == 0) && (t.get s).isSome

/-- The method `_get_definition`: `definition = self._definition[gics_code]`
(a `KeyError` if absent), then `definition.code = gics_code` mutates the
fetched record in place, inside the instance's own table. Returns the updated
table together with the fetched record. -/
def getDef (t : Table) (k : Str) : Except ConsError (Table × Descriptor) :=
  match t.get k with
  | none => .error (.keyError k)
  | some d => .ok (t.setCode k, { d with code := some k })

/-- One optional level of the constructor's `self._levels` list:
`self._get_definition(code[:2k]) if <cond> else None`. -/
def stepDef (b : Bool) (t : Table) (k : Str) : Except ConsError (Table × Option Descriptor) :=
  if b then
    match getDef t k with
    | .error e => .error e
    | .ok (t', d) => .ok (t', some d)
  else .ok (t, none)

/-- The four `_get_definition` calls of the constructor's valid branch, in
evaluation order, threading the instance table they mutate. -/
def buildLevels (t : Table) (s : Str) : Except ConsError (Table × List (Option Descriptor)) :=
  match getDef t (s.take 2) with
  | .error e => .error e
  | .ok (t1, d1) =>
      match stepDef (decide (4 ≤ s.length)) t1 (s.take 4) with
      | .error e => .error e
      | .ok (t2, o2) =>
          match stepDef (decide (6 ≤ s.length)) t2 (s.take 6) with
          | .error e => .error e
          | .ok (t3, o3) =>
              match stepDef (s.length == 8) t3 (s.take 8) with
              | .error e => .error e
              | .ok (t4, o4) => .ok (t4, [some d1, o2, o3, o4])

/-- The constructor `GICS.__init__(code, version)`.

`DEFINITIONS.get(version)` is looked up first; a missing version (or an empty
table, which is equally falsy) raises the `ValueError` before the code is
examined. `Map.create_recursively` deep-copies the table; on values the copy
is the identity (sharing is analysed separately in the heap model below).
Then the validity check runs and either the four levels are resolved (each
`_get_definition` writing a `code` field into the private copy) or the stored
code is cleared to `None` and `_levels` is never assigned. -/
def GICS.make (D : Definitions) (code : CodeInput) (version : String) : Except ConsError GICS :=
  match (DEFINITIONS D).lookup version with
  | none => .error (.unsupportedVersion ⟨version, (DEFINITIONS D).map (·.1)⟩)
  | some t =>
      if t.isEmpty then .error (.unsupportedVersion ⟨version, (DEFINITIONS D).map (·.1)⟩)
      else
        match code with
        | .str s =>
            if validStr t s then
              match buildLevels t s with
              | .error e => .error e
              | .ok (t4, ls) => .ok ⟨version, t4, some s, some ls⟩
            else .ok ⟨version, t, none, none⟩
        | _ => .ok ⟨version, t, none, none⟩

/-- The argument of `GICS.level`: an `int`, or some other Python value of the
given truthiness. -/
inductive LevelArg where
  | int (n : Int)
  | other (truthy : Bool)
deriving DecidableEq, Repr

/-- Runtime failures `GICS.level` could in principle hit: reading the never
assigned `self._levels`, or indexing it out of range. -/
inductive PyFail where
  | attributeError
  | indexError
deriving DecidableEq, Repr

/-- The method `level(gics_level)`: guard
`not self.is_valid or not gics_level or not isinstance(gics_level, int) or
gics_level < 1 or gics_level > 4` returns `None`; otherwise
`self._levels[gics_level - 1]` (an `AttributeError` if `_levels` was never
assigned, an `IndexError` if out of range). A non-`int` argument always falls
to the guard: if truthy it fails `isinstance`, if falsy it fails
`not gics_level`. -/
def GICS.level (g : GICS) (arg : LevelArg) : Except PyFail (Option Descriptor) :=
  match arg with
  | .other _ => .ok none
  | .int n =>
      if !g.isValid || n == 0 || decide (n < 1) || decide (4 < n) then .ok none
      else
        match g.levels with
        | none => .error .attributeError
        | some ls =>
            match ls.get? (n - 1).toNat with
            | none => .error .indexError
            | some d => .ok d

/-- One element of the list `children` returns: the literal
`Map({'code': k, 'name': ..., 'description': ...})`. -/
structure ChildEntry where
  code : Str
  name : String
  description : Option String
deriving DecidableEq, Repr

/-- Builds the child entry for a table entry. -/
def toChild (p : Str × Descriptor) : ChildEntry := ⟨p.1, p.2.name, p.2.description⟩

/-- The property `children`: filter the keys of the instance's table (all
length-2 keys when invalid, immediate extensions of the own code when valid)
and map each key to its `code`/`name`/`description` record. -/
def GICS.children (g : GICS) : List ChildEntry :=
  let ks :=
    match g.code, g.isValid with
    | some s, true =>
        g.definition.keys.filter (fun k => s.isPrefixOf k && (k.length == s.length + 2))
    | _, _ => g.definition.keys.filter (fun k => k.length == 2)
  ks.filterMap (fun k => (g.definition.get k).map (fun d => ChildEntry.mk k d.name d.description))

/-- The method `is_same`: `another_gics and
(self.is_valid == another_gics.is_valid) and (self.is_valid is False or
self._code == another_gics.code)`. The first operand is a live object (truthy);
the `==` compares the raw chain values; `is False` is identity with the bool
`False`, and `None == None` / `None == str` follow Python. -/
def GICS.is_same (g o : GICS) : Bool :=
  pyEq g.isValidRaw o.isValidRaw
    && ((g.isValidRaw == ValidRaw.pyFalse) || (g.code == o.code))

/-- The method `is_within`: both valid, different codes, and
`self._code.startswith(another_gics.code)`. When either side is invalid the
chain short-circuits before `startswith`, so the `none` cases are
unreachable there. -/
def GICS.is_within (g o : GICS) : Bool :=
  g.isValid && o.isValid && !(g.code == o.code)
    && (match g.code, o.code with
        | some a, some b => b.isPrefixOf a
        | _, _ => false)

/-- The method `is_immediate_within`: `is_within`'s conjuncts plus
`len(self._code) == len(another_gics._code) + 2`. -/
def GICS.is_immediate_within (g o : GICS) : Bool :=
  g.isValid && o.isValid && !(g.code == o.code)
    && (match g.code, o.code with
        | some a, some b => b.isPrefixOf a && (a.length == b.length + 2)
        | _, _ => false)

/-- The method `contains`: `another_gics.is_within(self)`. -/
def GICS.contains (g o : GICS) : Bool := o.is_within g

/-- The method `contains_immediate`: `another_gics.is_immediate_within(self)`. -/
def GICS.contains_immediate (g o : GICS) : Bool := o.is_immediate_within g

/-! ### Basic table lemmas -/

theorem Table.get_setCode (t : Table) (k k' : Str) :
    (t.setCode k).get k' =
      (t.get k').map (fun d => if k' = k then { d with code := some k } else d) := by
  induction t with
  | nil => rfl
  | cons p rest ih =>
      obtain ⟨k0, d0⟩ := p
      simp only [Table.setCode, Table.get]
      by_cases h0 : k0 = k' <;> simp [h0, ih]

theorem Table.keys_setCode (t : Table) (k : Str) : (t.setCode k).keys = t.keys := by
  induction t with
  | nil => rfl
  | cons p rest ih =>
      obtain ⟨k0, d0⟩ := p
      simp [Table.setCode, Table.keys] at ih ⊢
      exact ih

theorem Table.get_isSome_iff_mem (t : Table) (k : Str) :
    (t.get k).isSome = true ↔ k ∈ t.keys := by
  induction t with
  | nil => simp [Table.get, Table.keys]
  | cons p rest ih =>
      obtain ⟨k0, d0⟩ := p
      show (if k0 = k then some d0 else Table.get rest k).isSome = true
          ↔ k ∈ k0 :: Table.keys rest
      by_cases h0 : k0 = k
      · subst h0; simp
      · rw [if_neg h0, List.mem_cons, ih]
        constructor
        · exact Or.inr
        · rintro (rfl | hm)
          · exact absurd rfl h0
          · exact hm

/-- Erase the (possibly mutated) `code` field of a record. -/
def dropCode (d : Descriptor) : Descriptor := { d with code := none }

/-- Two tables agreeing up to `code`-field mutation: same keys, and the same
`name`/`description` under every key. -/
def sameCore (t t' : Table) : Prop :=
  t'.keys = t.keys ∧ ∀ k, (t'.get k).map dropCode = (t.get k).map dropCode

theorem sameCore_refl (t : Table) : sameCore t t := ⟨rfl, fun _ => rfl⟩

theorem sameCore_trans {t u w : Table} (h1 : sameCore t u) (h2 : sameCore u w) :
    sameCore t w :=
  ⟨h2.1.trans h1.1, fun k => (h2.2 k).trans (h1.2 k)⟩

theorem sameCore_setCode (t : Table) (k : Str) : sameCore t (t.setCode k) := by
  refine ⟨Table.keys_setCode t k, fun k' => ?_⟩
  rw [Table.get_setCode]
  cases t.get k' with
  | none => rfl
  | some d => by_cases h : k' = k <;> simp [h, dropCode]

theorem sameCore_isSome {t t' : Table} (h : sameCore t t') (k : Str) :
    (t'.get k).isSome = (t.get k).isSome := by
  have := h.2 k
  cases hg : t'.get k <;> cases hg' : t.get k <;> simp_all

/-! ### Constructor inversion -/

theorem getDef_ok {t : Table} {k : Str} {t' : Table} {d : Descriptor}
    (h : getDef t k = .ok (t', d)) :
    t' = t.setCode k ∧ d.code = some k ∧
      ∃ d0, t.get k = some d0 ∧ d = { d0 with code := some k } := by
  unfold getDef at h
  split at h
  · simp at h
  next d0 hg =>
      injection h with h
      injection h with h1 h2
      exact ⟨h1.symm, by rw [← h2], d0, hg, h2.symm⟩

theorem getDef_error {t : Table} {k : Str} {e : ConsError}
    (h : getDef t k = .error e) : e = .keyError k := by
  unfold getDef at h
  split at h
  · injection h with h; exact h.symm
  · simp at h

theorem stepDef_ok {b : Bool} {t : Table} {k : Str} {t' : Table} {o : Option Descriptor}
    (h : stepDef b t k = .ok (t', o)) :
    sameCore t t' ∧
      (b = true → ∃ d, o = some d ∧ d.code = some k) ∧
      (b = false → o = none ∧ t' = t) := by
  unfold stepDef at h
  split at h
  next hb =>
      split at h
      · simp at h
      next t1 d hg =>
          injection h with h
          injection h with h1 h2
          obtain ⟨ht, hc, -⟩ := getDef_ok hg
          refine ⟨h1 ▸ ht ▸ sameCore_setCode t k, fun _ => ⟨d, h2.symm, hc⟩, fun hf => ?_⟩
          exact absurd hb (by simp [hf])
  next hb =>
      injection h with h
      injection h with h1 h2
      refine ⟨h1 ▸ sameCore_refl t, fun htr => ?_, fun _ => ⟨h2.symm, h1.symm⟩⟩
      exact absurd htr hb

theorem stepDef_error {b : Bool} {t : Table} {k : Str} {e : ConsError}
    (h : stepDef b t k = .error e) : e = .keyError k := by
  unfold stepDef at h
  split at h
  next hb =>
      split at h
      next e' hg => injection h with h; exact h ▸ getDef_error hg
      next t1 d hg => simp at h
  next hb => simp at h

theorem buildLevels_ok {t : Table} {s : Str} {t4 : Table} {ls : List (Option Descriptor)}
    (h : buildLevels t s = .ok (t4, ls)) :
    sameCore t t4 ∧
      ∃ d1 o2 o3 o4, ls = [some d1, o2, o3, o4] ∧
        d1.code = some (s.take 2) ∧
        (4 ≤ s.length → ∃ d, o2 = some d ∧ d.code = some (s.take 4)) ∧
        (¬ 4 ≤ s.length → o2 = none) ∧
        (6 ≤ s.length → ∃ d, o3 = some d ∧ d.code = some (s.take 6)) ∧
        (¬ 6 ≤ s.length → o3 = none) ∧
        (s.length = 8 → ∃ d, o4 = some d ∧ d.code = some (s.take 8)) ∧
        (s.length ≠ 8 → o4 = none) := by
  unfold buildLevels at h
  split at h
  · simp at h
  next t1 d1 h1 =>
  split at h
  · simp at h
  next t2 o2 h2 =>
  split at h
  · simp at h
  next t3 o3 h3 =>
  split at h
  · simp at h
  next t4' o4 h4 =>
  injection h with h
  injection h with hta hls
  subst hta
  obtain ⟨hg1, hc1, d0, -, -⟩ := getDef_ok h1
  obtain ⟨hs2, hb2, hn2⟩ := stepDef_ok h2
  obtain ⟨hs3, hb3, hn3⟩ := stepDef_ok h3
  obtain ⟨hs4, hb4, hn4⟩ := stepDef_ok h4
  refine ⟨?_, d1, o2, o3, o4, hls.symm, hc1, ?_, ?_, ?_, ?_, ?_, ?_⟩
  · exact sameCore_trans (sameCore_trans (sameCore_trans
      (hg1 ▸ sameCore_setCode t (s.take 2)) hs2) hs3) hs4
  · exact fun hl => hb2 (by simpa using hl)
  · exact fun hl => (hn2 (by simpa using hl)).1
  · exact fun hl => hb3 (by simpa using hl)
  · exact fun hl => (hn3 (by simpa using hl)).1
  · exact fun hl => hb4 (by simpa using hl)
  · exact fun hl => (hn4 (by simpa using hl)).1

theorem buildLevels_error {t : Table} {s : Str} {e : ConsError}
    (h : buildLevels t s = .error e) : ∃ k, e = .keyError k := by
  unfold buildLevels at h
  split at h
  next e1 h1 => injection h with h; exact ⟨s.take 2, h ▸ getDef_error h1⟩
  next t1 d1 h1 =>
  split at h
  next e2 h2 => injection h with h; exact ⟨s.take 4, h ▸ stepDef_error h2⟩
  next t2 o2 h2 =>
  split at h
  next e3 h3 => injection h with h; exact ⟨s.take 6, h ▸ stepDef_error h3⟩
  next t3 o3 h3 =>
  split at h
  next e4 h4 => injection h with h; exact ⟨s.take 8, h ▸ stepDef_error h4⟩
  next t4 o4 h4 => simp at h

/-- Inversion of the constructor: a successful construction used the table of
the requested version, and produced either the cleared invalid state or the
valid state with its four resolved levels. -/
theorem make_ok_inv {D : Definitions} {c : CodeInput} {v : String} {g : GICS}
    (h : GICS.make D c v = .ok g) :
    ∃ t, (DEFINITIONS D).lookup v = some t ∧ t.isEmpty = false ∧
      ((g = ⟨v, t, none, none⟩ ∧ ∀ s, c = .str s → validStr t s = false) ∨
       (∃ s t4 ls, c = .str s ∧ validStr t s = true ∧
          buildLevels t s = .ok (t4, ls) ∧ g = ⟨v, t4, some s, some ls⟩)) := by
  unfold GICS.make at h
  split at h
  · simp at h
  next t hl =>
  split at h
  · simp at h
  next hne =>
  refine ⟨t, hl, by simpa using hne, ?_⟩
  split at h
  next s =>
      split at h
      next hv =>
          split at h
          · simp at h
          next t4 ls hb =>
              injection h with h
              exact .inr ⟨s, t4, ls, rfl, hv, hb, h.symm⟩
      next hv =>
          injection h with h
          refine .inl ⟨h.symm, fun s' hs' => ?_⟩
          injection hs' with hs'
          subst hs'
          simpa using hv
  next c' hno =>
      injection h with h
      exact .inl ⟨h.symm, fun s' hs' => ((hno s' hs').elim)⟩

/-! ### Validity lemmas -/

theorem isValid_mk (v : String) (u : Table) (s : Str)
    (ls : Option (List (Option Descriptor))) :
    (GICS.mk v u (some s) ls).isValid = validStr u s := by
  unfold GICS.isValid GICS.isValidRaw validStr
  show ValidRaw.truthy
      (if s.isEmpty then .emptyStr
       else if ¬ 2 ≤ s.length then .pyFalse
       else if ¬ s.length ≤ 8 then .pyFalse
       else if ¬ s.length % 2 = 0 then .pyFalse
       else match Table.get u s with
            | none => .pyNone
            | some d => .descr d) = _
  by_cases h1 : s.isEmpty
  · simp [h1, ValidRaw.truthy]
  by_cases h2 : 2 ≤ s.length
  case neg => simp [h1, h2, ValidRaw.truthy]
  by_cases h3 : s.length ≤ 8
  case neg => simp [h1, h2, h3, ValidRaw.truthy]
  by_cases h4 : s.length % 2 = 0
  case neg => simp [h1, h2, h3, h4, ValidRaw.truthy]
  cases hg : Table.get u s <;> simp [h1, h2, h3, h4, hg, ValidRaw.truthy]

theorem isValid_mk_none (v : String) (u : Table)
    (ls : Option (List (Option Descriptor))) :
    (GICS.mk v u none ls).isValid = false := rfl

theorem validStr_iff (t : Table) (s : Str) :
    validStr t s = true ↔
      s ≠ [] ∧ 2 ≤ s.length ∧ s.length ≤ 8 ∧ s.length % 2 = 0 ∧ s ∈ t.keys := by
  rw [← Table.get_isSome_iff_mem]
  simp [validStr, List.isEmpty_iff, and_assoc]

theorem validStr_sameCore {t t' : Table} (h : sameCore t t') (s : Str) :
    validStr t' s = validStr t s := by
  unfold validStr
  rw [sameCore_isSome h]

/-- A successful construction whose result stores a code took the valid branch:
the input was that code string, it passed validation against the version's
table, the four levels were resolved, and the object tests valid. -/
theorem make_ok_valid {D : Definitions} {c : CodeInput} {v : String} {g : GICS} {s : Str}
    (h : GICS.make D c v = .ok g) (hs : g.code = some s) :
    ∃ t t4 ls, (DEFINITIONS D).lookup v = some t ∧ c = .str s ∧ validStr t s = true ∧
      buildLevels t s = .ok (t4, ls) ∧ g = ⟨v, t4, some s, some ls⟩ ∧ g.isValid = true := by
  obtain ⟨t, hl, hne, hcase⟩ := make_ok_inv h
  cases hcase with
  | inl hc => rw [hc.1] at hs; cases hs
  | inr hc =>
      obtain ⟨s', t4, ls, hstr, hv, hb, hg⟩ := hc
      have hss : s' = s := by rw [hg] at hs; injection hs
      subst hss
      refine ⟨t, t4, ls, hl, hstr, hv, hb, hg, ?_⟩
      rw [hg, isValid_mk, validStr_sameCore (buildLevels_ok hb).1, hv]

theorem make_ok_code_none_or_str {D : Definitions} {c : CodeInput} {v : String} {g : GICS}
    (h : GICS.make D c v = .ok g) :
    g.code = none ∨ ∃ s, g.code = some s := by
  obtain ⟨t, -, -, hcase⟩ := make_ok_inv h
  cases hcase with
  | inl hc => rw [hc.1]; exact .inl rfl
  | inr hc => obtain ⟨s, t4, ls, -, -, -, hg⟩ := hc; rw [hg]; exact .inr ⟨s, rfl⟩

/-! ### Version lookup -/

theorem lookup_defs (D : Definitions) (v : String) :
    (DEFINITIONS D).lookup v =
      if "20140228" = v then some D.d_20140228
      else if "20160901" = v then some D.d_20160901
      else if "20180929" = v then some D.d_20180929
      else if "20230318" = v then some D.d_20230318
      else none := by
  simp only [DEFINITIONS, List.lookup]
  by_cases h1 : "20140228" = v
  · have p1 : (v == "20140228") = true := by rw [h1]; exact beq_self_eq_true v
    simp only [p1, if_pos h1]
  have e1 : (v == "20140228") = false := beq_eq_false_iff_ne.mpr (Ne.symm h1)
  simp only [e1, if_neg h1]
  by_cases h2 : "20160901" = v
  · have p2 : (v == "20160901") = true := by rw [h2]; exact beq_self_eq_true v
    simp only [p2, if_pos h2]
  have e2 : (v == "20160901") = false := beq_eq_false_iff_ne.mpr (Ne.symm h2)
  simp only [e2, if_neg h2]
  by_cases h3 : "20180929" = v
  · have p3 : (v == "20180929") = true := by rw [h3]; exact beq_self_eq_true v
    simp only [p3, if_pos h3]
  have e3 : (v == "20180929") = false := beq_eq_false_iff_ne.mpr (Ne.symm h3)
  simp only [e3, if_neg h3]
  by_cases h4 : "20230318" = v
  · have p4 : (v == "20230318") = true := by rw [h4]; exact beq_self_eq_true v
    simp only [p4, if_pos h4]
  have e4 : (v == "20230318") = false := beq_eq_false_iff_ne.mpr (Ne.symm h4)
  simp [e4, if_neg h4]

/-! ### Claim theorems C1-C4 -/

/-- C1: for every constructed resolver, `is_valid` is true iff the supplied
code is a non-empty string of even length between 2 and 8 inclusive and the
full code string is a key of the bound version's definition table. -/
theorem is_valid_characterization {D : Definitions} {c : CodeInput} {v : String}
    {g : GICS} {t : Table} (ht : (DEFINITIONS D).lookup v = some t)
    (h : GICS.make D c v = .ok g) :
    g.isValid = true ↔
      ∃ s, c = .str s ∧ s ≠ [] ∧ 2 ≤ s.length ∧ s.length ≤ 8 ∧
        s.length % 2 = 0 ∧ s ∈ t.keys := by
  obtain ⟨t0, hl0, hne, hcase⟩ := make_ok_inv h
  have htt : t0 = t := Option.some.inj (hl0.symm.trans ht)
  subst htt
  cases hcase with
  | inl hc =>
      obtain ⟨hg, hv⟩ := hc
      subst hg
      simp only [isValid_mk_none, Bool.false_eq_true, false_iff]
      rintro ⟨s, rfl, hs1, hs2, hs3, hs4, hs5⟩
      have hval : validStr t0 s = true := (validStr_iff t0 s).mpr ⟨hs1, hs2, hs3, hs4, hs5⟩
      rw [hv s rfl] at hval
      cases hval
  | inr hc =>
      obtain ⟨s, t4, ls, rfl, hv, hb, hg⟩ := hc
      subst hg
      have hvalid : (GICS.mk v t4 (some s) (some ls)).isValid = true := by
        rw [isValid_mk, validStr_sameCore (buildLevels_ok hb).1, hv]
      rw [hvalid]
      simp only [true_iff]
      obtain ⟨hs1, hs2, hs3, hs4, hs5⟩ := (validStr_iff t0 s).mp hv
      exact ⟨s, rfl, hs1, hs2, hs3, hs4, hs5⟩

/-- C2: an unknown version makes construction fail with the version error
carrying the requested value and the enumerated known set, for every code
input (so before and independent of any code validation, producing no
object); a known version (its table being non-empty) never produces this
error. -/
theorem version_gate (D : Definitions) :
    (∀ v, (DEFINITIONS D).lookup v = none ↔ v ∉ knownVersions) ∧
    (∀ c v, (DEFINITIONS D).lookup v = none →
        GICS.make D c v = .error (.unsupportedVersion ⟨v, knownVersions⟩)) ∧
    (∀ c v t e, (DEFINITIONS D).lookup v = some t → t ≠ [] →
        GICS.make D c v ≠ .error (.unsupportedVersion e)) := by
  refine ⟨fun v => ?_, fun c v hl => ?_, fun c v t e hl hne hcontra => ?_⟩
  · rw [lookup_defs]
    split_ifs with h1 h2 h3 h4
    · simp_all [knownVersions]
    · simp_all [knownVersions]
    · simp_all [knownVersions]
    · simp_all [knownVersions]
    · simp only [knownVersions, List.mem_cons, List.not_mem_nil, or_false, true_iff]
      push_neg
      exact ⟨fun hv => h1 hv.symm, fun hv => h2 hv.symm, fun hv => h3 hv.symm,
        fun hv => h4 hv.symm⟩
  · simp only [GICS.make, hl]
    rfl
  · unfold GICS.make at hcontra
    split at hcontra
    next hl' => rw [hl] at hl'; cases hl'
    next t' hl' =>
        have htt : t' = t := Option.some.inj (hl'.symm.trans hl)
        subst htt
        split at hcontra
        next hemp => exact hne (by simpa [List.isEmpty_iff] using hemp)
        next hemp =>
            split at hcontra
            next s =>
                split at hcontra
                next hv =>
                    split at hcontra
                    next e' hb =>
                        obtain ⟨k, hk⟩ := buildLevels_error hb
                        subst hk
                        injection hcontra with hh
                        exact ConsError.noConfusion hh
                    next t4 ls hb => simp at hcontra
                next hv => simp at hcontra
            next c' hno => simp at hcontra

theorem level_of_invalid {g : GICS} (hv : g.isValid = false) (a : LevelArg) :
    g.level a = .ok none := by
  cases a with
  | other b => rfl
  | int n => simp [GICS.level, hv]

/-- C3: with a known version (non-empty table), any code input that fails the
validity test — absent, non-string, empty, wrong length or not a key — still
constructs successfully, and the result is invalid with a cleared code, no
levels list, and every `level` query absent. -/
theorem invalid_code_not_error {D : Definitions} {c : CodeInput} {v : String} {t : Table}
    (ht : (DEFINITIONS D).lookup v = some t) (hne : t ≠ [])
    (hc : ∀ s, c = .str s → validStr t s = false) :
    GICS.make D c v = .ok ⟨v, t, none, none⟩ ∧
      (GICS.mk v t none none).isValid = false ∧
      (GICS.mk v t none none).code = none ∧
      (GICS.mk v t none none).levels = none ∧
      ∀ a, (GICS.mk v t none none).level a = .ok none := by
  have hemp : t.isEmpty = false := by simpa [List.isEmpty_iff] using hne
  refine ⟨?_, rfl, rfl, rfl, fun a => level_of_invalid (isValid_mk_none v t none) a⟩
  simp only [GICS.make, ht, hemp]
  cases c with
  | str s => simp [hc s rfl]
  | pyNone => rfl
  | other b => rfl

theorem level_valid_nth {g : GICS} (hv : g.isValid = true)
    {ls : List (Option Descriptor)} (hls : g.levels = some ls)
    (n : Int) (h1 : 1 ≤ n) (h4 : n ≤ 4) {o : Option Descriptor}
    (ho : ls.get? (n - 1).toNat = some o) :
    g.level (.int n) = .ok o := by
  have hcond : (!g.isValid || n == 0 || decide (n < 1) || decide (4 < n)) = false := by
    simp only [hv, Bool.not_true, Bool.false_or, Bool.or_eq_false_iff,
      decide_eq_false_iff_not, beq_eq_false_iff_ne]
    refine ⟨⟨?_, ?_⟩, ?_⟩ <;> omega
  simp only [GICS.level, hcond, Bool.false_eq_true, if_false, hls, ho]

/-- C4: `level(n)` is absent for non-integer arguments, integers outside
`[1,4]`, invalid instances, and levels the code's length does not reach; for
a valid code, `level(n)` with `2*n <= len(code)` is present and its record's
`code` field is the first `2*n` characters of the full code; `level(1)` is
always present on a valid instance. -/
theorem level_spec {D : Definitions} {c : CodeInput} {v : String} {g : GICS}
    (h : GICS.make D c v = .ok g) :
    (∀ b, g.level (.other b) = .ok none) ∧
    (∀ n : Int, n < 1 ∨ 4 < n → g.level (.int n) = .ok none) ∧
    (g.isValid = false → ∀ a, g.level a = .ok none) ∧
    (∀ s, g.code = some s → ∀ n : Int, 1 ≤ n → n ≤ 4 →
      ((s.length : Int) < 2 * n → g.level (.int n) = .ok none) ∧
      (2 * n ≤ (s.length : Int) →
        ∃ d, g.level (.int n) = .ok (some d) ∧ d.code = some (s.take (2 * n.toNat)))) ∧
    (∀ s, g.code = some s →
      ∃ d, g.level (.int 1) = .ok (some d) ∧ d.code = some (s.take 2)) := by
  refine ⟨fun b => rfl, fun n hn => ?_, fun hv a => level_of_invalid hv a,
    fun s hs n h1 h4 => ?_, fun s hs => ?_⟩
  · rcases hn with hn | hn <;> simp [GICS.level, hn]
  case refine_3 =>
    obtain ⟨t, t4, ls, hl, -, hv, hb, hg, hvalid⟩ := make_ok_valid h hs
    have hls : g.levels = some ls := by rw [hg]
    obtain ⟨hs1, hs2, hs3, hs4, -⟩ := (validStr_iff t s).mp hv
    obtain ⟨-, d1, o2, o3, o4, hlsx, hc1, -, -, -, -, -, -⟩ := buildLevels_ok hb
    subst hlsx
    exact ⟨d1, level_valid_nth hvalid hls 1 (by omega) (by omega) rfl, hc1⟩
  · obtain ⟨t, t4, ls, hl, -, hv, hb, hg, hvalid⟩ := make_ok_valid h hs
    have hls : g.levels = some ls := by rw [hg]
    obtain ⟨hs1, hs2, hs3, hs4, -⟩ := (validStr_iff t s).mp hv
    obtain ⟨-, d1, o2, o3, o4, hlsx, hc1, hb2, hn2, hb3, hn3, hb4, hn4⟩ := buildLevels_ok hb
    subst hlsx
    interval_cases n
    · refine ⟨fun hlt => absurd hlt (by push_cast; omega), fun _ => ?_⟩
      refine ⟨d1, level_valid_nth hvalid hls 1 (by omega) (by omega) rfl, ?_⟩
      simpa using hc1
    · constructor
      · intro hlt
        have ho2 : o2 = none := hn2 (by push_cast at hlt; omega)
        subst ho2
        exact level_valid_nth hvalid hls 2 (by omega) (by omega) rfl
      · intro hge
        obtain ⟨d, hd, hdc⟩ := hb2 (by push_cast at hge; omega)
        subst hd
        refine ⟨d, level_valid_nth hvalid hls 2 (by omega) (by omega) rfl, ?_⟩
        simpa using hdc
    · constructor
      · intro hlt
        have ho3 : o3 = none := hn3 (by push_cast at hlt; omega)
        subst ho3
        exact level_valid_nth hvalid hls 3 (by omega) (by omega) rfl
      · intro hge
        obtain ⟨d, hd, hdc⟩ := hb3 (by push_cast at hge; omega)
        subst hd
        refine ⟨d, level_valid_nth hvalid hls 3 (by omega) (by omega) rfl, ?_⟩
        simpa using hdc
    · constructor
      · intro hlt
        have ho4 : o4 = none := hn4 (by push_cast at hlt; omega)
        subst ho4
        exact level_valid_nth hvalid hls 4 (by omega) (by omega) rfl
      · intro hge
        obtain ⟨d, hd, hdc⟩ := hb4 (by push_cast at hge; omega)
        subst hd
        refine ⟨d, level_valid_nth hvalid hls 4 (by omega) (by omega) rfl, ?_⟩
        simpa using hdc

/-! ### Children -/

theorem children_invalid {g : GICS} (hv : g.isValid = false) :
    g.children = (g.definition.keys.filter (fun k => k.length == 2)).filterMap
      (fun k => (Table.get g.definition k).map
        (fun d => ChildEntry.mk k d.name d.description)) := by
  cases hc : g.code with
  | none => simp only [GICS.children, hc]
  | some s => simp only [GICS.children, hc, hv]

theorem children_valid {g : GICS} {s : Str} (hc : g.code = some s) (hv : g.isValid = true) :
    g.children = (g.definition.keys.filter
        (fun k => s.isPrefixOf k && (k.length == s.length + 2))).filterMap
      (fun k => (Table.get g.definition k).map
        (fun d => ChildEntry.mk k d.name d.description)) := by
  simp only [GICS.children, hc, hv]

theorem map_child_eq {o o' : Option Descriptor} (k : Str)
    (hc : o.map dropCode = o'.map dropCode) :
    o.map (fun d => ChildEntry.mk k d.name d.description) =
      o'.map (fun d => ChildEntry.mk k d.name d.description) := by
  cases o <;> cases o' <;> simp_all [dropCode, Descriptor.mk.injEq]

theorem mem_children_table {u : Table} (q : Str → Bool) (e : ChildEntry) :
    (e ∈ (u.keys.filter q).filterMap
        (fun k => (Table.get u k).map (fun d => ChildEntry.mk k d.name d.description))) ↔
      ∃ k d, Table.get u k = some d ∧ q k = true ∧
        e = ChildEntry.mk k d.name d.description := by
  simp only [List.mem_filterMap, List.mem_filter, Option.map_eq_some']
  constructor
  · rintro ⟨k, ⟨-, hq⟩, d, hd, rfl⟩
    exact ⟨k, d, hd, hq, rfl⟩
  · rintro ⟨k, d, hd, hq, rfl⟩
    have hk : k ∈ u.keys := (Table.get_isSome_iff_mem u k).mp (by rw [hd]; rfl)
    exact ⟨k, ⟨hk, hq⟩, d, hd, rfl⟩

theorem filterMap_get_map_code (u : Table) (ks : List Str) (hks : ∀ k ∈ ks, k ∈ u.keys) :
    (ks.filterMap (fun k => (Table.get u k).map
        (fun d => ChildEntry.mk k d.name d.description))).map ChildEntry.code = ks := by
  induction ks with
  | nil => rfl
  | cons k rest ih =>
      obtain ⟨d, hd⟩ := Option.isSome_iff_exists.mp
        ((Table.get_isSome_iff_mem u k).mpr (hks k (by simp)))
      simp only [List.filterMap_cons, hd, Option.map_some']
      simp only [List.map_cons, ih (fun k' hk' => hks k' (by simp [hk']))]

/-- C5: `children()` of an invalid resolver lists exactly the length-2 table
entries; of a valid resolver exactly the entries extending its code by one
level; with no duplicates; and a valid length-8 code yields the empty list
when every table key has length at most 8. -/
theorem children_spec {D : Definitions} {c : CodeInput} {v : String} {g : GICS} {t : Table}
    (ht : (DEFINITIONS D).lookup v = some t) (hnd : t.keys.Nodup)
    (h : GICS.make D c v = .ok g) :
    (g.isValid = false → ∀ e, e ∈ g.children ↔
        ∃ k d, Table.get t k = some d ∧ k.length = 2 ∧
          e = ChildEntry.mk k d.name d.description) ∧
    (∀ s, g.code = some s → ∀ e, e ∈ g.children ↔
        ∃ k d, Table.get t k = some d ∧ s <+: k ∧ k.length = s.length + 2 ∧
          e = ChildEntry.mk k d.name d.description) ∧
    (g.children.map ChildEntry.code).Nodup ∧
    (∀ s, g.code = some s → s.length = 8 → (∀ k ∈ t.keys, k.length ≤ 8) →
        g.children = []) := by
  obtain ⟨t0, hl0, hne, hcase⟩ := make_ok_inv h
  have htt : t0 = t := Option.some.inj (hl0.symm.trans ht)
  subst htt
  cases hcase with
  | inl hc =>
      obtain ⟨hg, -⟩ := hc
      subst hg
      have hch := @children_invalid (GICS.mk v t0 none none) (isValid_mk_none v t0 none)
      refine ⟨fun _ e => ?_, fun s hs => ?_, ?_, fun s hs => ?_⟩
      · rw [hch, mem_children_table]
        constructor
        · rintro ⟨k, d, hd, hq, rfl⟩
          exact ⟨k, d, hd, by simpa using hq, rfl⟩
        · rintro ⟨k, d, hd, hq, rfl⟩
          exact ⟨k, d, hd, by simpa using hq, rfl⟩
      · exact absurd hs (by simp)
      · rw [hch, filterMap_get_map_code _ _ (fun k hk => List.mem_of_mem_filter hk)]
        exact hnd.filter _
      · exact absurd hs (by simp)
  | inr hc =>
      obtain ⟨s0, t4, ls, rfl, hv, hb, hg⟩ := hc
      subst hg
      have hsame : sameCore t0 t4 := (buildLevels_ok hb).1
      have hvalid : (GICS.mk v t4 (some s0) (some ls)).isValid = true := by
        rw [isValid_mk, validStr_sameCore hsame, hv]
      have hch := @children_valid (GICS.mk v t4 (some s0) (some ls)) s0 rfl hvalid
      have hkeys : Table.keys t4 = Table.keys t0 := hsame.1
      have hcongr : ∀ q : Str → Bool,
          ((Table.keys t0).filter q).filterMap
              (fun k => (Table.get t4 k).map
                (fun d => ChildEntry.mk k d.name d.description)) =
            ((Table.keys t0).filter q).filterMap
              (fun k => (Table.get t0 k).map
                (fun d => ChildEntry.mk k d.name d.description)) :=
        fun q => List.filterMap_congr (fun k _ => map_child_eq k (hsame.2 k))
  -- valid-branch obligations
      have hvfalse : ¬ (GICS.mk v t4 (some s0) (some ls)).isValid = false := by
        rw [hvalid]; simp
      refine ⟨fun hvf => absurd hvf hvfalse, fun s hs e => ?_, ?_, fun s hs h8 hk8 => ?_⟩
      · have hss : s0 = s := by injection hs
        subst hss
        rw [hch, hkeys, hcongr, mem_children_table]
        constructor
        · rintro ⟨k, d, hd, hq, rfl⟩
          simp only [Bool.and_eq_true, List.isPrefixOf_iff_prefix, beq_iff_eq] at hq
          exact ⟨k, d, hd, hq.1, hq.2, rfl⟩
        · rintro ⟨k, d, hd, hp, hlen, rfl⟩
          refine ⟨k, d, hd, ?_, rfl⟩
          simp only [Bool.and_eq_true, List.isPrefixOf_iff_prefix, beq_iff_eq]
          exact ⟨hp, hlen⟩
      · rw [hch, hkeys, hcongr,
          filterMap_get_map_code _ _ (fun k hk => List.mem_of_mem_filter hk)]
        exact hnd.filter _
      · have hss : s0 = s := by injection hs
        subst hss
        rw [hch, hkeys]
        have hfil : (Table.keys t0).filter
            (fun k => s0.isPrefixOf k && (k.length == s0.length + 2)) = [] := by
          refine List.filter_eq_nil_iff.mpr (fun k hk => ?_)
          have hkl : k.length ≤ 8 := hk8 k hk
          simp only [Bool.and_eq_true, beq_iff_eq, not_and]
          intro hpre
          omega
        rw [hfil]
        rfl

/-! ### is_same -/

/-- The record the validity chain fetches for the stored code
(`self._definition.get(self.code)` on the instance's own table). -/
def GICS.ownRecord (g : GICS) : Option Descriptor :=
  match g.code with
  | none => none
  | some s => Table.get g.definition s

theorem isValidRaw_of_validStr (v : String) (u : Table) (s : Str)
    (ls : Option (List (Option Descriptor))) (hv : validStr u s = true) :
    ∃ d, Table.get u s = some d ∧ (GICS.mk v u (some s) ls).isValidRaw = .descr d := by
  simp only [validStr, Bool.and_eq_true, Bool.not_eq_true', decide_eq_true_eq,
    beq_iff_eq, Option.isSome_iff_exists] at hv
  obtain ⟨⟨⟨⟨h1, h2⟩, h3⟩, h4⟩, d, hd⟩ := hv
  refine ⟨d, hd, ?_⟩
  simp only [GICS.isValidRaw, h1, Bool.false_eq_true, if_false, if_neg (by omega : ¬ ¬ 2 ≤ s.length),
    if_neg (by omega : ¬ ¬ s.length ≤ 8), if_neg (by omega : ¬ ¬ s.length % 2 = 0), hd]

/-- Structure of the raw validity value of any constructed object: `None` with
a cleared code, or the fetched descriptor of the stored code. -/
theorem make_ok_raw {D : Definitions} {c : CodeInput} {v : String} {g : GICS}
    (h : GICS.make D c v = .ok g) :
    (g.code = none ∧ g.isValidRaw = .pyNone) ∨
      (∃ s d, g.code = some s ∧ Table.get g.definition s = some d ∧
        g.isValidRaw = .descr d) := by
  obtain ⟨t, hl, hne, hcase⟩ := make_ok_inv h
  cases hcase with
  | inl hc => rw [hc.1]; exact .inl ⟨rfl, rfl⟩
  | inr hc =>
      obtain ⟨s, t4, ls, rfl, hv, hb, hg⟩ := hc
      subst hg
      have hv4 : validStr t4 s = true := by
        rw [validStr_sameCore (buildLevels_ok hb).1]; exact hv
      obtain ⟨d, hd, hraw⟩ := isValidRaw_of_validStr v t4 s (some ls) hv4
      exact .inr ⟨s, d, rfl, hd, hraw⟩

/-- C6 (amended): `is_same` holds iff both sides have equal validity and
either both are invalid, or both are valid with identical code strings and
identical fetched descriptor records for that code (identical name and
description; automatic when both resolvers are bound to the same version). -/
theorem is_same_spec {D D' : Definitions} {c c' : CodeInput} {v v' : String} {a b : GICS}
    (ha : GICS.make D c v = .ok a) (hb : GICS.make D' c' v' = .ok b) :
    a.is_same b = true ↔
      (a.isValid = b.isValid ∧
        (a.isValid = false ∨ (a.code = b.code ∧ a.ownRecord = b.ownRecord))) := by
  rcases make_ok_raw ha with ⟨hca, hra⟩ | ⟨sa, da, hca, hga, hra⟩ <;>
    rcases make_ok_raw hb with ⟨hcb, hrb⟩ | ⟨sb, db, hcb, hgb, hrb⟩
  · simp [GICS.is_same, GICS.isValid, hra, hrb, hca, hcb, pyEq, ValidRaw.truthy]
  · simp [GICS.is_same, GICS.isValid, hra, hrb, hca, hcb, pyEq, ValidRaw.truthy]
  · simp [GICS.is_same, GICS.isValid, hra, hrb, hca, hcb, pyEq, ValidRaw.truthy]
  · have hva : a.isValid = true := by simp [GICS.isValid, hra, ValidRaw.truthy]
    have hvb : b.isValid = true := by simp [GICS.isValid, hrb, ValidRaw.truthy]
    have hoa : a.ownRecord = some da := by simp [GICS.ownRecord, hca, hga]
    have hob : b.ownRecord = some db := by simp [GICS.ownRecord, hcb, hgb]
    rw [hva, hvb, hoa, hob, hca, hcb]
    simp only [GICS.is_same, hra, hrb, pyEq, hca, hcb]
    constructor
    · intro hs
      simp only [Bool.and_eq_true, Bool.or_eq_true, decide_eq_true_eq, beq_iff_eq] at hs
      obtain ⟨hdd, hpf | hcc⟩ := hs
      · cases hpf
      · exact ⟨by trivial, .inr ⟨by rw [hcc], by rw [hdd]⟩⟩
    · rintro ⟨-, hff | ⟨hcc, hdd⟩⟩
      · cases hff
      · injection hcc with hcc
        injection hdd with hdd
        subst hcc
        subst hdd
        simp

/-! ### Relationship predicates -/

theorem isValid_code_none {g : GICS} (hc : g.code = none) : g.isValid = false := by
  simp [GICS.isValid, GICS.isValidRaw, hc, ValidRaw.truthy]

/-- C7: `is_within` holds iff both operands are valid, their codes differ and
the other code is a string prefix of this one; `is_immediate_within` further
requires the length to exceed the other's by exactly 2; `is_within` is
irreflexive, and both predicates are false with an invalid operand. -/
theorem within_spec (a b : GICS) :
    (a.is_within b = true ↔
      a.isValid = true ∧ b.isValid = true ∧ a.code ≠ b.code ∧
        ∃ sa sb, a.code = some sa ∧ b.code = some sb ∧ sb <+: sa) ∧
    (a.is_immediate_within b = true ↔
      a.isValid = true ∧ b.isValid = true ∧ a.code ≠ b.code ∧
        ∃ sa sb, a.code = some sa ∧ b.code = some sb ∧ sb <+: sa ∧
          sa.length = sb.length + 2) ∧
    a.is_within a = false ∧
    (a.isValid = false ∨ b.isValid = false →
      a.is_within b = false ∧ a.is_immediate_within b = false) := by
  refine ⟨?_, ?_, ?_, ?_⟩
  · cases hca : a.code with
    | none =>
        simp [GICS.is_within, isValid_code_none hca]
    | some sa =>
        cases hcb : b.code with
        | none => simp [GICS.is_within, isValid_code_none hcb]
        | some sb =>
            simp only [GICS.is_within, hca, hcb, Bool.and_eq_true, Bool.not_eq_true',
              beq_eq_false_iff_ne, List.isPrefixOf_iff_prefix, ne_eq]
            constructor
            · rintro ⟨⟨⟨hva, hvb⟩, hne⟩, hp⟩
              exact ⟨hva, hvb, hne, sa, sb, rfl, rfl, hp⟩
            · rintro ⟨hva, hvb, hne, sa', sb', hsa, hsb, hp⟩
              injection hsa with hsa
              injection hsb with hsb
              subst hsa; subst hsb
              exact ⟨⟨⟨hva, hvb⟩, hne⟩, hp⟩
  · cases hca : a.code with
    | none =>
        simp [GICS.is_immediate_within, isValid_code_none hca]
    | some sa =>
        cases hcb : b.code with
        | none => simp [GICS.is_immediate_within, isValid_code_none hcb]
        | some sb =>
            simp only [GICS.is_immediate_within, hca, hcb, Bool.and_eq_true,
              Bool.not_eq_true', beq_eq_false_iff_ne, List.isPrefixOf_iff_prefix,
              beq_iff_eq, ne_eq]
            constructor
            · rintro ⟨⟨⟨hva, hvb⟩, hne⟩, hp, hl⟩
              exact ⟨hva, hvb, hne, sa, sb, rfl, rfl, hp, hl⟩
            · rintro ⟨hva, hvb, hne, sa', sb', hsa, hsb, hp, hl⟩
              injection hsa with hsa
              injection hsb with hsb
              subst hsa; subst hsb
              exact ⟨⟨⟨hva, hvb⟩, hne⟩, hp, hl⟩
  · simp [GICS.is_within]
  · rintro (hv | hv) <;>
      simp [GICS.is_within, GICS.is_immediate_within, hv]

/-- C8: `contains` and `contains_immediate` are the argument-swapped duals of
`is_within` and `is_immediate_within`. -/
theorem contains_duality (a b : GICS) :
    a.contains b = b.is_within a ∧ a.contains_immediate b = b.is_immediate_within a :=
  ⟨rfl, rfl⟩

/-- C10: an invalid construction leaves the levels list unassigned, yet
`level` is total on it: the validity guard short-circuits first and every
argument yields absent rather than an attribute or index failure. -/
theorem level_total_on_invalid {D : Definitions} {c : CodeInput} {v : String} {g : GICS}
    (h : GICS.make D c v = .ok g) (hv : g.isValid = false) :
    g.levels = none ∧ ∀ a, g.level a = .ok none := by
  obtain ⟨t, hl, hne, hcase⟩ := make_ok_inv h
  cases hcase with
  | inl hc =>
      obtain ⟨hg, -⟩ := hc
      subst hg
      exact ⟨rfl, fun a => level_of_invalid (isValid_mk_none v t none) a⟩
  | inr hc =>
      obtain ⟨s, t4, ls, rfl, hvs, hb, hg⟩ := hc
      subst hg
      have hvalid : (GICS.mk v t4 (some s) (some ls)).isValid = true := by
        rw [isValid_mk, validStr_sameCore (buildLevels_ok hb).1, hvs]
      rw [hvalid] at hv
      cases hv

/-! ### Concrete data for witnesses

Modelled from the spec: the shipped definition tables are not under
verification; these miniature tables follow the spec's data model (code keys
of even length 2-8 closed under level prefixes, a `name` for every entry, a
`description` only at level 4, and codes that may be absent or differently
named across versions, such as the spec's `4040`, retired after 2014-02-28,
and the sector `50`, renamed between revisions). -/

def t2014 : Table :=
  [(strOf "10", ⟨"Energy", none, none⟩),
   (strOf "40", ⟨"Financials", none, none⟩),
   (strOf "4040", ⟨"Real Estate", none, none⟩)]

def t2016 : Table :=
  [(strOf "10", ⟨"Energy", none, none⟩),
   (strOf "50", ⟨"Telecommunication Services", none, none⟩)]

def t2018 : Table :=
  [(strOf "10", ⟨"Energy", none, none⟩),
   (strOf "50", ⟨"Communication Services", none, none⟩)]

def t2023 : Table :=
  [(strOf "10", ⟨"Energy", none, none⟩),
   (strOf "1010", ⟨"Energy", none, none⟩),
   (strOf "101010", ⟨"Energy Equipment and Services", none, none⟩),
   (strOf "10101010", ⟨"Oil and Gas Drilling", some "Drilling contractors", none⟩),
   (strOf "60", ⟨"Real Estate", none, none⟩)]

/-- Concrete instance of the version bundle. -/
def Dex : Definitions := ⟨t2014, t2016, t2018, t2023⟩

/-- Unwraps a construction known to have succeeded. -/
def getOk (e : Except ConsError GICS) : GICS :=
  match e with
  | .ok g => g
  | .error _ => ⟨"", [], none, none⟩

/-! ### Witnesses -/

/-- Witness for C1 at the valid code `1010` of version `20230318`. -/
theorem is_valid_characterization_witness :
    (getOk (GICS.make Dex (.str (strOf "1010")) "20230318")).isValid = true :=
  (@is_valid_characterization Dex (.str (strOf "1010")) "20230318"
      (getOk (GICS.make Dex (.str (strOf "1010")) "20230318")) t2023
      (by decide) rfl).mpr
    ⟨strOf "1010", rfl, by decide, by decide, by decide, by decide, by decide⟩

/-- Witness for C2: an unknown version fails with the enumerating error for an
absent code, and a known version never produces that error. -/
theorem version_gate_witness :
    GICS.make Dex .pyNone "19990101" =
        .error (.unsupportedVersion ⟨"19990101", knownVersions⟩) ∧
      GICS.make Dex (.str (strOf "10")) "20230318" ≠
        .error (.unsupportedVersion ⟨"20230318", knownVersions⟩) :=
  ⟨(version_gate Dex).2.1 .pyNone "19990101" (by decide),
   (version_gate Dex).2.2 (.str (strOf "10")) "20230318" t2023
     ⟨"20230318", knownVersions⟩ (by decide) (by decide)⟩

/-- Witness for C3 at the unknown code `9999`. -/
theorem invalid_code_not_error_witness :
    GICS.make Dex (.str (strOf "9999")) "20230318" =
        .ok ⟨"20230318", t2023, none, none⟩ ∧
      (GICS.mk "20230318" t2023 none none).isValid = false ∧
      (GICS.mk "20230318" t2023 none none).level (.int 2) = .ok none :=
  have h := @invalid_code_not_error Dex (.str (strOf "9999")) "20230318" t2023
    (by decide) (by decide) (fun s hs => by cases hs; decide)
  ⟨h.1, h.2.1, h.2.2.2.2 (.int 2)⟩

/-- Witness for C4 at code `101010`, level 2. -/
theorem level_spec_witness :
    ∃ d, (getOk (GICS.make Dex (.str (strOf "101010")) "20230318")).level (.int 2)
        = .ok (some d) ∧ d.code = some (strOf "1010") := by
  have h := @level_spec Dex (.str (strOf "101010")) "20230318"
    (getOk (GICS.make Dex (.str (strOf "101010")) "20230318")) rfl
  obtain ⟨d, hl, hc⟩ :=
    (h.2.2.2.1 (strOf "101010") (by decide) 2 (by decide) (by decide)).2 (by decide)
  exact ⟨d, hl, by rw [hc]; decide⟩

/-- Witness for C5: the sector `10` has the industry group `1010` as child,
and a sub-industry has no children. -/
theorem children_spec_witness :
    ChildEntry.mk (strOf "1010") "Energy" none ∈
        (getOk (GICS.make Dex (.str (strOf "10")) "20230318")).children ∧
      (getOk (GICS.make Dex (.str (strOf "10101010")) "20230318")).children = [] := by
  constructor
  · have h := @children_spec Dex (.str (strOf "10")) "20230318"
      (getOk (GICS.make Dex (.str (strOf "10")) "20230318")) t2023
      (by decide) (by decide) rfl
    exact (h.2.1 (strOf "10") (by decide) _).mpr
      ⟨strOf "1010", ⟨"Energy", none, none⟩, by decide, ⟨strOf "10", by decide⟩,
        by decide, rfl⟩
  · have h := @children_spec Dex (.str (strOf "10101010")) "20230318"
      (getOk (GICS.make Dex (.str (strOf "10101010")) "20230318")) t2023
      (by decide) (by decide) rfl
    exact h.2.2.2 (strOf "10101010") (by decide) (by decide) (by decide)

/-- The resolver for code `50` under version `20160901`. -/
def cexA : GICS := getOk (GICS.make Dex (.str (strOf "50")) "20160901")

/-- The resolver for code `50` under version `20180929`. -/
def cexB : GICS := getOk (GICS.make Dex (.str (strOf "50")) "20180929")

/-- C6 counterexample: two constructed resolvers, both valid with identical
code strings (the sector `50`, renamed between the two bound revisions), whose
`is_same` is nevertheless false — `is_same` compares the raw `is_valid` chain
values, which for valid objects are the fetched descriptor records, so a
differing `name` defeats the comparison before the codes are compared. -/
theorem is_same_cross_version_cex :
    GICS.make Dex (.str (strOf "50")) "20160901" = .ok cexA ∧
      GICS.make Dex (.str (strOf "50")) "20180929" = .ok cexB ∧
      cexA.isValid = true ∧ cexB.isValid = true ∧ cexA.code = cexB.code ∧
      cexA.is_same cexB = false :=
  ⟨rfl, rfl, by decide, by decide, by decide, by decide⟩

/-- Witness for C6 (amended) at two equal same-version resolvers. -/
theorem is_same_spec_witness :
    (getOk (GICS.make Dex (.str (strOf "10")) "20230318")).is_same
        (getOk (GICS.make Dex (.str (strOf "10")) "20230318")) = true :=
  (@is_same_spec Dex Dex (.str (strOf "10")) (.str (strOf "10")) "20230318" "20230318"
      (getOk (GICS.make Dex (.str (strOf "10")) "20230318"))
      (getOk (GICS.make Dex (.str (strOf "10")) "20230318")) rfl rfl).mpr
    ⟨rfl, .inr ⟨rfl, rfl⟩⟩

/-- Witness for C7: `101010` is within `10`; an invalid operand refutes it. -/
theorem within_spec_witness :
    (getOk (GICS.make Dex (.str (strOf "101010")) "20230318")).is_within
        (getOk (GICS.make Dex (.str (strOf "10")) "20230318")) = true ∧
      (getOk (GICS.make Dex (.str (strOf "99")) "20230318")).is_within
        (getOk (GICS.make Dex (.str (strOf "10")) "20230318")) = false := by
  constructor
  · exact (within_spec _ _).1.mpr
      ⟨by decide, by decide, by decide, strOf "101010", strOf "10",
        by decide, by decide, ⟨strOf "1010", by decide⟩⟩
  · exact ((within_spec _ _).2.2.2 (.inl (by decide))).1

/-- Witness for C10 at the empty construction. -/
theorem level_total_on_invalid_witness :
    (getOk (GICS.make Dex .pyNone "20230318")).levels = none ∧
      (getOk (GICS.make Dex .pyNone "20230318")).level (.int 1) = .ok none :=
  have h := @level_total_on_invalid Dex .pyNone "20230318"
    (getOk (GICS.make Dex .pyNone "20230318")) rfl (by decide)
  ⟨h.1, h.2 (.int 1)⟩

end PyGics

/-!
### Heap model of object sharing

The pure model above treats tables as values, which cannot express the claim
that `Map.create_recursively` protects the module-level `DEFINITIONS` data
from the `definition.code = gics_code` writes of `_get_definition`. Here
descriptor objects live on a heap of numbered cells: the module tables hold
cell addresses, `Map.create_recursively` allocates fresh cells copying the
pointed-to records (one fresh `Map` per nested dict), and `_get_definition`
writes through its instance's own table. Aliasing instead of copying would
make the constructor write into module-owned cells.
-/

namespace PyGics.HeapM

open PyGics

/-- The mutable store: allocation counter and descriptor cells. -/
structure Heap where
  next : Nat
  cells : List (Nat × Descriptor)
deriving DecidableEq, Repr

/-- Dereference a cell. -/
def Heap.get (h : Heap) (a : Nat) : Option Descriptor := h.cells.lookup a

/-- Overwrite the cell at `a` (a no-op on a dangling address). -/
def Heap.set (h : Heap) (a : Nat) (d : Descriptor) : Heap :=
  ⟨h.next, h.cells.map (fun p => if p.1 = a then (a, d) else p)⟩

/-- A table object: keys to descriptor-cell addresses. -/
abbrev TableObj := List (Str × Nat)

/-- The method `Map.create_recursively`: a fresh top map whose nested dict
values are replaced by fresh copies — one new cell per entry, copying the
pointed-to record. -/
def copyTable : Heap → TableObj → TableObj × Heap
  | h, [] => ([], h)
  | h, (k, a) :: rest =>
      let d := (h.get a).getD ⟨"", none, none⟩
      let q := copyTable ⟨h.next + 1, (h.next, d) :: h.cells⟩ rest
      ((k, h.next) :: q.1, q.2)

/-- The method `_get_definition` on the heap: fetch the cell address for the
key (`KeyError` when absent) and write the `code` attribute through it. -/
def getDefH (h : Heap) (t : TableObj) (k : Str) : Except ConsError (Heap × Nat) :=
  match t.lookup k with
  | none => .error (.keyError k)
  | some a =>
      let d := (h.get a).getD ⟨"", none, none⟩
      .ok (h.set a { d with code := some k }, a)

/-- One optional level of the constructor, heap version. -/
def stepDefH (b : Bool) (h : Heap) (t : TableObj) (k : Str) :
    Except ConsError (Heap × Option Nat) :=
  if b then
    match getDefH h t k with
    | .error e => .error e
    | .ok (h', a) => .ok (h', some a)
  else .ok (h, none)

/-- The four `_get_definition` calls of the valid branch, heap version. -/
def buildLevelsH (h : Heap) (t : TableObj) (s : Str) :
    Except ConsError (Heap × List (Option Nat)) :=
  match getDefH h t (s.take 2) with
  | .error e => .error e
  | .ok (h1, a1) =>
      match stepDefH (decide (4 ≤ s.length)) h1 t (s.take 4) with
      | .error e => .error e
      | .ok (h2, o2) =>
          match stepDefH (decide (6 ≤ s.length)) h2 t (s.take 6) with
          | .error e => .error e
          | .ok (h3, o3) =>
              match stepDefH (s.length == 8) h3 t (s.take 8) with
              | .error e => .error e
              | .ok (h4, o4) => .ok (h4, [some a1, o2, o3, o4])

/-- The validity chain on a table object. The fetched record always carries a
`name`, so its dict truthiness is its presence under the key. -/
def validStrH (t : TableObj) (s : Str) : Bool :=
  !s.isEmpty && decide (2 ≤ s.length) && decide (s.length ≤ 8)
    && (s.length % 2 == 0) && (t.lookup s).isSome

/-- A constructed object in the heap model: its private table of cell
addresses and the optional levels list of addresses. -/
structure GICSH where
  definition_version : String
  definition : TableObj
  code : Option Str
  levels : Option (List (Option Nat))
deriving DecidableEq, Repr

/-- The `is_valid` property in the heap model. -/
def isValidH (g : GICSH) : Bool :=
  match g.code with
  | none => false
  | some s => validStrH g.definition s

/-- The constructor in the heap model: version gate on the module mapping
`env`, recursive copy of the version's table, then the same validity check
and level resolution as the pure model, threading the heap they mutate. -/
def makeH (env : List (String × TableObj)) (h : Heap) (c : CodeInput) (v : String) :
    Except ConsError (GICSH × Heap) :=
  match env.lookup v with
  | none => .error (.unsupportedVersion ⟨v, env.map Prod.fst⟩)
  | some t0 =>
      if t0.isEmpty then .error (.unsupportedVersion ⟨v, env.map Prod.fst⟩)
      else
        match c with
        | .str s =>
            if validStrH (copyTable h t0).1 s then
              match buildLevelsH (copyTable h t0).2 (copyTable h t0).1 s with
              | .error e => .error e
              | .ok (h4, ls) => .ok (⟨v, (copyTable h t0).1, some s, some ls⟩, h4)
            else .ok (⟨v, (copyTable h t0).1, none, none⟩, (copyTable h t0).2)
        | _ => .ok (⟨v, (copyTable h t0).1, none, none⟩, (copyTable h t0).2)

/-- The property `children` in the heap model, reading records through the
instance's table addresses. -/
def childrenH (h : Heap) (g : GICSH) : List ChildEntry :=
  let ks :=
    match g.code, isValidH g with
    | some s, true =>
        (g.definition.map Prod.fst).filter
          (fun k => s.isPrefixOf k && (k.length == s.length + 2))
    | _, _ => (g.definition.map Prod.fst).filter (fun k => k.length == 2)
  ks.filterMap (fun k => (g.definition.lookup k).bind
    (fun a => (Heap.get h a).map (fun d => ChildEntry.mk k d.name d.description)))

/-! ### Frame lemmas -/

theorem lookup_mem {α β : Type} [BEq α] {l : List (α × β)} {x : α} {b : β}
    (h : List.lookup x l = some b) : ∃ p ∈ l, p.2 = b := by
  induction l with
  | nil => cases h
  | cons p rest ih =>
      obtain ⟨k0, v0⟩ := p
      simp only [List.lookup] at h
      cases hb : (x == k0) with
      | true =>
          rw [hb] at h
          injection h with h
          exact ⟨(k0, v0), by simp, h⟩
      | false =>
          rw [hb] at h
          obtain ⟨q, hq, hqb⟩ := ih h
          exact ⟨q, by simp [hq], hqb⟩

theorem lookup_map_set (cs : List (Nat × Descriptor)) (a : Nat) (d : Descriptor)
    (a' : Nat) (hne : a' ≠ a) :
    (cs.map (fun p => if p.1 = a then (a, d) else p)).lookup a' = cs.lookup a' := by
  induction cs with
  | nil => rfl
  | cons p rest ih =>
      obtain ⟨a0, d0⟩ := p
      by_cases h0 : a0 = a
      · subst h0
        have he : (if ((a0, d0) : Nat × Descriptor).1 = a0 then (a0, d) else (a0, d0))
            = (a0, d) := if_pos rfl
        rw [List.map_cons, he]
        have hb : (a' == a0) = false := beq_eq_false_iff_ne.mpr hne
        simp only [List.lookup, hb, ih]
      · have he : (if ((a0, d0) : Nat × Descriptor).1 = a then (a, d) else (a0, d0))
            = (a0, d0) := if_neg h0
        rw [List.map_cons, he]
        cases hb : (a' == a0) <;> simp only [List.lookup, hb, ih]

theorem Heap.get_set_ne {h : Heap} {a : Nat} {d : Descriptor} {a' : Nat}
    (hne : a' ≠ a) : (h.set a d).get a' = h.get a' :=
  lookup_map_set h.cells a d a' hne

theorem Heap.next_set (h : Heap) (a : Nat) (d : Descriptor) :
    (h.set a d).next = h.next := rfl

theorem copyTable_spec (t : TableObj) (h : Heap) :
    h.next ≤ (copyTable h t).2.next ∧
      (∀ a, a < h.next → (copyTable h t).2.get a = h.get a) ∧
      (∀ p ∈ (copyTable h t).1, h.next ≤ p.2 ∧ p.2 < (copyTable h t).2.next) := by
  induction t generalizing h with
  | nil => exact ⟨Nat.le_refl _, fun a _ => rfl, by simp [copyTable]⟩
  | cons p rest ih =>
      obtain ⟨k, a0⟩ := p
      have hmid := ih ⟨h.next + 1, (h.next, (h.get a0).getD ⟨"", none, none⟩) :: h.cells⟩
      simp only [copyTable]
      refine ⟨?_, ?_, ?_⟩
      · exact Nat.le_trans (Nat.le_succ _) hmid.1
      · intro a ha
        rw [hmid.2.1 a (by exact Nat.lt_succ_of_lt ha)]
        show List.lookup a ((h.next, (h.get a0).getD ⟨"", none, none⟩) :: h.cells)
            = List.lookup a h.cells
        have hb : (a == h.next) = false := beq_eq_false_iff_ne.mpr (by omega)
        simp only [List.lookup, hb]
      · intro q hq
        simp only [List.mem_cons] at hq
        cases hq with
        | inl hq =>
            subst hq
            exact ⟨Nat.le_refl _, Nat.lt_of_lt_of_le (Nat.lt_succ_self _) hmid.1⟩
        | inr hq =>
            have hqb := hmid.2.2 q hq
            exact ⟨Nat.le_trans (Nat.le_succ _) hqb.1, hqb.2⟩

theorem getDefH_frame {h : Heap} {t : TableObj} {k : Str} {h' : Heap} {a : Nat}
    (hg : getDefH h t k = .ok (h', a)) :
    (∃ p ∈ t, p.2 = a) ∧ h'.next = h.next ∧
      ∀ b, (∀ p ∈ t, p.2 ≠ b) → h'.get b = h.get b := by
  unfold getDefH at hg
  split at hg
  · cases hg
  next a0 hl =>
      injection hg with hg
      injection hg with hg1 hg2
      subst hg2
      obtain ⟨p, hp, hpa⟩ := lookup_mem hl
      refine ⟨⟨p, hp, hpa⟩, by rw [← hg1]; rfl, fun b hb => ?_⟩
      rw [← hg1]
      exact Heap.get_set_ne (fun he => hb p hp (hpa.trans he.symm))

theorem stepDefH_frame {bl : Bool} {h : Heap} {t : TableObj} {k : Str} {h' : Heap}
    {o : Option Nat} (hg : stepDefH bl h t k = .ok (h', o)) :
    h'.next = h.next ∧ ∀ b, (∀ p ∈ t, p.2 ≠ b) → h'.get b = h.get b := by
  unfold stepDefH at hg
  split at hg
  · split at hg
    · cases hg
    next h1 a1 hgd =>
        injection hg with hg
        injection hg with hg1 hg2
        obtain ⟨-, hn, hf⟩ := getDefH_frame hgd
        exact ⟨hg1 ▸ hn, fun b hb => hg1 ▸ hf b hb⟩
  · injection hg with hg
    injection hg with hg1 hg2
    exact ⟨hg1 ▸ rfl, fun b _ => hg1 ▸ rfl⟩

theorem buildLevelsH_frame {h : Heap} {t : TableObj} {s : Str} {h' : Heap}
    {ls : List (Option Nat)} (hg : buildLevelsH h t s = .ok (h', ls)) :
    h'.next = h.next ∧ ∀ b, (∀ p ∈ t, p.2 ≠ b) → h'.get b = h.get b := by
  unfold buildLevelsH at hg
  split at hg
  · cases hg
  next h1 a1 hg1 =>
  split at hg
  · cases hg
  next h2 o2 hg2 =>
  split at hg
  · cases hg
  next h3 o3 hg3 =>
  split at hg
  · cases hg
  next h4 o4 hg4 =>
  injection hg with hg
  injection hg with hga hgb
  subst hga
  obtain ⟨-, hn1, hf1⟩ := getDefH_frame hg1
  obtain ⟨hn2, hf2⟩ := stepDefH_frame hg2
  obtain ⟨hn3, hf3⟩ := stepDefH_frame hg3
  obtain ⟨hn4, hf4⟩ := stepDefH_frame hg4
  refine ⟨by rw [hn4, hn3, hn2, hn1], fun b hb => ?_⟩
  rw [hf4 b hb, hf3 b hb, hf2 b hb, hf1 b hb]

theorem childrenH_congr {h h' : Heap} (g0 : GICSH)
    (hag : ∀ p ∈ g0.definition, h'.get p.2 = h.get p.2) :
    childrenH h' g0 = childrenH h g0 := by
  unfold childrenH
  refine List.filterMap_congr (fun k _ => ?_)
  cases hl : g0.definition.lookup k with
  | none => rfl
  | some a =>
      obtain ⟨p, hp, hpa⟩ := lookup_mem hl
      have hget : Heap.get h' a = Heap.get h a := hpa ▸ hag p hp
      show (Heap.get h' a).map (fun d => ChildEntry.mk k d.name d.description)
          = (Heap.get h a).map (fun d => ChildEntry.mk k d.name d.description)
      rw [hget]

/-- C9: construction touches only freshly allocated cells. Every cell that
existed before a construction — in particular every cell a module-level
definition table points to, and every cell any previously built resolver can
read — is unchanged afterwards, while the new object's own table is entirely
fresh; so the `code`-field writes of `_get_definition` land only in the
private copy, the shared data is never mutated, and the `children` output of
any older resolver is identical before and after. -/
theorem construction_frame {env : List (String × TableObj)} {h : Heap} {c : CodeInput}
    {v : String} {g : GICSH} {h' : Heap}
    (hmk : makeH env h c v = .ok (g, h')) :
    h.next ≤ h'.next ∧
      (∀ a, a < h.next → h'.get a = h.get a) ∧
      (∀ p ∈ g.definition, h.next ≤ p.2) ∧
      (∀ e ∈ env, ∀ q ∈ e.2, q.2 < h.next → h'.get q.2 = h.get q.2) ∧
      (∀ g0 : GICSH, (∀ p ∈ g0.definition, p.2 < h.next) →
          childrenH h' g0 = childrenH h g0) := by
  have main : h.next ≤ h'.next ∧ (∀ a, a < h.next → h'.get a = h.get a) ∧
      (∀ p ∈ g.definition, h.next ≤ p.2) := by
    unfold makeH at hmk
    split at hmk
    · cases hmk
    next t0 hl =>
    split at hmk
    · cases hmk
    next hemp =>
    obtain ⟨hcn, hcf, hca⟩ := copyTable_spec t0 h
    split at hmk
    next s =>
        split at hmk
        next hv =>
            split at hmk
            · cases hmk
            next h4 ls hb =>
                injection hmk with hmk
                injection hmk with hmk1 hmk2
                obtain ⟨hn4, hf4⟩ := buildLevelsH_frame hb
                have hgd : g.definition = (copyTable h t0).1 := by rw [← hmk1]
                refine ⟨?_, fun a ha => ?_, fun p hp => ?_⟩
                · rw [← hmk2, hn4]; exact hcn
                · rw [← hmk2,
                    hf4 a (fun p hp => by have := (hca p hp).1; omega), hcf a ha]
                · exact (hca p (hgd ▸ hp)).1
        next hv =>
            injection hmk with hmk
            injection hmk with hmk1 hmk2
            refine ⟨hmk2 ▸ hcn, fun a ha => hmk2 ▸ hcf a ha,
              fun p hp => (hca p (by rw [← hmk1] at hp; exact hp)).1⟩
    next c' hno =>
        injection hmk with hmk
        injection hmk with hmk1 hmk2
        refine ⟨hmk2 ▸ hcn, fun a ha => hmk2 ▸ hcf a ha,
          fun p hp => (hca p (by rw [← hmk1] at hp; exact hp)).1⟩
  refine ⟨main.1, main.2.1, main.2.2, ?_, ?_⟩
  · exact fun e _ q _ hq => main.2.1 q.2 hq
  · exact fun g0 hg0 => childrenH_congr g0 (fun p hp => main.2.1 p.2 (hg0 p hp))

/-- A module heap with two descriptor cells and one version table. -/
def heapEx : Heap := ⟨2, [(0, ⟨"Energy", none, none⟩), (1, ⟨"Energy", none, none⟩)]⟩

/-- The module-level definitions for the heap witness. -/
def envEx : List (String × TableObj) := [("v1", [(strOf "10", 0), (strOf "1010", 1)])]

/-- Unwraps a heap construction known to have succeeded. -/
def getOkH (e : Except ConsError (GICSH × Heap)) : GICSH × Heap :=
  match e with
  | .ok p => p
  | .error _ => (⟨"", [], none, none⟩, ⟨0, []⟩)

/-- Witness for C9: constructing `1010` against `v1` leaves both module cells
untouched (their `code` fields stay absent) even though the construction
wrote the code into its own fresh copy (cell 3). -/
theorem construction_frame_witness :
    (getOkH (makeH envEx heapEx (.str (strOf "1010")) "v1")).2.get 0 = heapEx.get 0 ∧
      (getOkH (makeH envEx heapEx (.str (strOf "1010")) "v1")).2.get 1 = heapEx.get 1 ∧
      (getOkH (makeH envEx heapEx (.str (strOf "1010")) "v1")).2.get 3 =
        some ⟨"Energy", none, some (strOf "1010")⟩ :=
  have h := @construction_frame envEx heapEx (.str (strOf "1010")) "v1"
    (getOkH (makeH envEx heapEx (.str (strOf "1010")) "v1")).1
    (getOkH (makeH envEx heapEx (.str (strOf "1010")) "v1")).2 rfl
  ⟨h.2.1 0 (by decide), h.2.1 1 (by decide), by decide⟩

end PyGics.HeapM
